import Mathlib

/-!
Verification development for the representative-selection engine of
CVC4, file src/theory/quantifiers/equality_query.cpp
(EqualityQueryQuantifiersEngine).  Terms are modelled as finite trees
with a kind, an identifier, a type and a child list; the congruence
closure equality engine, the term database, the first-order model and
the option set are external collaborators and are modelled as explicit
read-only data (an association list from registered terms to their
representatives, plus boolean and attribute lookup functions), exactly
the interface the code consumes.  The mutable solver state
(d_int_rep, d_rep_score, d_reset_count) is threaded explicitly.
Assertions of the C++ code (Assert(...)) are modelled as boolean
fields of the result record: a field is false exactly when the
corresponding assertion would fail (debug builds halt there).
-/

/-- Node kinds, restricted to the kinds the code under study inspects:
quantified formulas, bound variable lists, bound variables, free
variables, interpreted constants, uninterpreted constants (the opaque
model values of uninterpreted sorts) and operator applications. -/
inductive Kind where
  | FORALL
  | BOUND_VAR_LIST
  | BOUND_VARIABLE
  | VARIABLE
  | CONST
  | UCONST
  | APPLY
  deriving DecidableEq

/-- Types are opaque identifiers; the subtype test and the user-sort
test on them belong to the external type system and are supplied by
the environment. -/
abbrev TypeNode := Nat

mutual
/-- An immutable term: null, or a node with a kind, an identifier, a
type and a list of children.  Mirrors the opaque, equality-comparable
handles of the source (spec section 3). -/
inductive Node where
  | null : Node
  | node (k : Kind) (id : Nat) (ty : TypeNode) (children : NodeList)
/-- Child lists of a term, as a separate inductive so that structural
recursion and decidable equality are available. -/
inductive NodeList where
  | nil : NodeList
  | cons (hd : Node) (tl : NodeList)
end

mutual
/-- Decidable equality of terms. -/
def Node.decEq : (a b : Node) → Decidable (a = b)
  | .null, .null => isTrue rfl
  | .null, .node _ _ _ _ => isFalse (fun h => Node.noConfusion h)
  | .node _ _ _ _, .null => isFalse (fun h => Node.noConfusion h)
  | .node k1 i1 t1 c1, .node k2 i2 t2 c2 =>
    if hk : k1 = k2 then
      if hi : i1 = i2 then
        if ht : t1 = t2 then
          match NodeList.decEq c1 c2 with
          | isTrue hc => isTrue (by rw [hk, hi, ht, hc])
          | isFalse hc => isFalse (by intro h; injection h; exact hc (by assumption))
        else isFalse (by intro h; injection h; exact ht (by assumption))
      else isFalse (by intro h; injection h; exact hi (by assumption))
    else isFalse (by intro h; injection h; exact hk (by assumption))
/-- Decidable equality of child lists. -/
def NodeList.decEq : (a b : NodeList) → Decidable (a = b)
  | .nil, .nil => isTrue rfl
  | .nil, .cons _ _ => isFalse (fun h => NodeList.noConfusion h)
  | .cons _ _, .nil => isFalse (fun h => NodeList.noConfusion h)
  | .cons h1 t1, .cons h2 t2 =>
    match Node.decEq h1 h2 with
    | isTrue hh =>
      match NodeList.decEq t1 t2 with
      | isTrue htl => isTrue (by rw [hh, htl])
      | isFalse htl => isFalse (by intro h; injection h; exact htl (by assumption))
    | isFalse hh => isFalse (by intro h; injection h; exact hh (by assumption))
end

instance : DecidableEq Node := Node.decEq
instance : DecidableEq NodeList := NodeList.decEq

/-- Test for the null term (Node::isNull). -/
def Node.isNull : Node → Bool
  | .null => true
  | .node _ _ _ _ => false

/-- Kind of a term; the null term has no kind. -/
def Node.getKind : Node → Option Kind
  | .null => none
  | .node k _ _ _ => some k

/-- Type of a term (Node::getType); the null term is given a dummy
type, the code never queries it. -/
def Node.getType : Node → TypeNode
  | .null => 0
  | .node _ _ ty _ => ty

/-- Modelled from the spec: Node::isConst of the term kernel is not
part of the slice; the core treats interpreted constants and the
opaque uninterpreted-domain values as the concrete constant terms
(spec sections 3 and 4.1 step 2). -/
def Node.isConst : Node → Bool
  | .null => false
  | .node k _ _ _ => k = Kind.CONST || k = Kind.UCONST

/-- Child access with index (NodeList side), null when out of range. -/
def NodeList.get : NodeList → Nat → Node
  | .nil, _ => .null
  | .cons h _, 0 => h
  | .cons _ t, n + 1 => NodeList.get t n

/-- Child access n[i] on terms, null when out of range. -/
def Node.child : Node → Nat → Node
  | .null, _ => .null
  | .node _ _ _ cs, i => cs.get i

mutual
/-- Modelled from the spec: TermUtil::containsUninterpretedConstant is
not part of the slice; a term contains an uninterpreted constant iff
it is one or one of its descendants is (spec section 4.1 step 2,
a concrete opaque value of an uninterpreted domain). -/
def containsUninterpretedConstant : Node → Bool
  | .null => false
  | .node k _ _ cs =>
    k = Kind.UCONST || containsUninterpretedConstantList cs
/-- List form of containsUninterpretedConstant. -/
def containsUninterpretedConstantList : NodeList → Bool
  | .nil => false
  | .cons h t => containsUninterpretedConstant h || containsUninterpretedConstantList t
end

mutual
/-- Modelled from the spec: TermUtil::getTermDepth is not part of the
slice; the depth of a term is the number of nested operator
applications from the leaves, 0 for a leaf (spec sections 4.3 tier 5
and 8: plain constants have depth 0, an application f(a) of constants
has depth 1). -/
def Node.getTermDepth : Node → Nat
  | .null => 0
  | .node _ _ _ cs =>
    match cs with
    | .nil => 0
    | .cons h t => 1 + NodeList.maxDepth (.cons h t)
/-- Maximal depth over a child list. -/
def NodeList.maxDepth : NodeList → Nat
  | .nil => 0
  | .cons h t => Nat.max (Node.getTermDepth h) (NodeList.maxDepth t)
end

/-- First-match lookup in an association list, the model of the
std::map find calls of the source. -/
def assocGet {α β : Type} [DecidableEq α] : List (α × β) → α → Option β
  | [], _ => none
  | p :: rest, k => if k = p.1 then some p.2 else assocGet rest k

/-- Store under a key in an association list: replace the first
binding of the key, append a binding when absent; the model of
std::map operator[] assignment. -/
def assocSet {α β : Type} [DecidableEq α] : List (α × β) → α → β → List (α × β)
  | [], k, v => [(k, v)]
  | p :: rest, k, v => if k = p.1 then (k, v) :: rest else p :: assocSet rest k v

/-- Mode selected by options::quantRepMode(): use the equality-engine
representative directly (EE), prefer the earliest chosen
representative (FIRST), or prefer the shallowest term (DEPTH). -/
inductive QuantRepMode where
  | EE
  | FIRST
  | DEPTH
  deriving DecidableEq

/-- The configuration switches the code reads (spec section 6). -/
structure Options where
  finiteModelFind : Bool
  quantRepMode : QuantRepMode
  cbqi : Bool
  lteRestrictInstClosure : Bool
  instMaxLevel : Int
  instLevelInputOnly : Bool

/-- The external congruence-closure equality engine, reduced to the
interface the code consumes: a finite table assigning each registered
term its representative (hasTerm, getRepresentative and the
equivalence class iterator all derive from it) together with the
opaque boolean queries areEqual and areDisequal on registered terms. -/
structure EqEngine where
  terms : List (Node × Node)
  areEqual : Node → Node → Bool
  areDisequal : Node → Node → Bool

/-- eq::EqualityEngine::hasTerm. -/
def EqEngine.hasTerm (ee : EqEngine) (a : Node) : Bool :=
  (assocGet ee.terms a).isSome

/-- eq::EqualityEngine::getRepresentative; meaningful only under
hasTerm, the table value of a registered term. -/
def EqEngine.getRepresentative (ee : EqEngine) (a : Node) : Node :=
  (assocGet ee.terms a).getD a

/-- eq::EqClassIterator: every registered term whose representative is
rep, in the engine enumeration order (the table order). -/
def EqEngine.eqClassIterator (ee : EqEngine) (rep : Node) : List Node :=
  (ee.terms.filter (fun p => p.2 = rep)).map Prod.fst

/-- The read-only collaborators of the selector (spec sections 6 and
9): options, equality engine, first-order model and the
attribute/term-database lookups, the latter modelled as explicit
functions keyed by term identity as the spec directs. -/
structure Env where
  opts : Options
  ee : EqEngine
  hasModel : Bool
  getTermForRepresentative : Node → Node
  hasInstConstAttr : Node → Bool
  instLevelAttr : Node → Option Nat
  isInstClosure : Node → Bool
  hasTermCurrent : Node → Bool
  isSubtypeOf : TypeNode → TypeNode → Bool
  isSort : TypeNode → Bool

/-- The mutable state of EqualityQueryQuantifiersEngine: the
per-variable-type representative cache d_int_rep, the persistent
first-chosen table d_rep_score, and the generation counter
d_reset_count. -/
structure QState where
  d_int_rep : List (TypeNode × List (Node × Node))
  d_rep_score : List (Node × Nat)
  d_reset_count : Nat

/-- EqualityQueryQuantifiersEngine::reset (the invalidate operation):
clears d_int_rep, increments d_reset_count; the C++ method also
returns true unconditionally. -/
def reset (st : QState) : QState :=
  { st with d_int_rep := [], d_reset_count := st.d_reset_count + 1 }

/-- Iterated reset, for stating persistence across any number of
invalidations. -/
def resetIter : Nat → QState → QState
  | 0, st => st
  | k + 1, st => resetIter k (reset st)

/-- EqualityQueryQuantifiersEngine::hasTerm. -/
def hasTerm (env : Env) (a : Node) : Bool :=
  env.ee.hasTerm a

/-- EqualityQueryQuantifiersEngine::getRepresentative: the engine
representative when the term is registered, the term itself
otherwise. -/
def getRepresentative (env : Env) (a : Node) : Node :=
  if env.ee.hasTerm a then env.ee.getRepresentative a else a

/-- EqualityQueryQuantifiersEngine::areEqual. -/
def areEqual (env : Env) (a b : Node) : Bool :=
  if a = b then true
  else if env.ee.hasTerm a && env.ee.hasTerm b then env.ee.areEqual a b
  else false

/-- EqualityQueryQuantifiersEngine::areDisequal. -/
def areDisequal (env : Env) (a b : Node) : Bool :=
  if a = b then false
  else if env.ee.hasTerm a && env.ee.hasTerm b then env.ee.areDisequal a b
  else a.isConst && b.isConst

/-- EqualityQueryQuantifiersEngine::getEquivalenceClass: the engine
class of the representative of a when a is registered, the singleton
of a otherwise.  The Assert that a is a member of the result is the
subject of a theorem below. -/
def getEquivalenceClass (env : Env) (a : Node) : List Node :=
  if env.ee.hasTerm a then env.ee.eqClassIterator (env.ee.getRepresentative a)
  else [a]

/-- EqualityQueryQuantifiersEngine::getRepScore, the scoring policy:
-2 rejects, -1 marks undesired, a value at least 0 ranks candidates
(smaller is better).  The five tiers in source order: the
counterexample-guided filter, the type filter, the
closure-restriction filter, the instantiation-level tier, and the
first-use / depth tie-break modes. -/
def getRepScore (env : Env) (st : QState) (n q : Node) (index : Nat)
    (v_tn : TypeNode) : Int :=
  if env.opts.cbqi && env.hasInstConstAttr n then -2
  else if !(env.isSubtypeOf n.getType v_tn) then -2
  else if env.opts.lteRestrictInstClosure &&
      (!(env.isInstClosure n) || !(env.hasTermCurrent n)) then -1
  else if env.opts.instMaxLevel ≠ -1 then
    match env.instLevelAttr n with
    | some l => (l : Int)
    | none => if env.opts.instLevelInputOnly then -1 else 0
  else if env.opts.quantRepMode = QuantRepMode.FIRST then
    match assocGet st.d_rep_score n with
    | some g => (g : Int)
    | none => -1
  else
    (Node.getTermDepth n : Int)

/-- The candidate selection loop of getInternalRepresentative over the
enumerated equivalence class, with the running best candidate (null
initially) and its score (-1 initially): a candidate is skipped when
its score is -2, and replaces the running best when no best exists
yet, or when its score is non-negative and either the best score is
negative or strictly larger. -/
def selectLoopGo (f : Node → Int) : List Node → Node → Int → Node × Int
  | [], best, bestScore => (best, bestScore)
  | n :: rest, best, bestScore =>
    let score := f n
    if score = -2 then selectLoopGo f rest best bestScore
    else if best.isNull ∨ (0 ≤ score ∧ (bestScore < 0 ∨ score < bestScore)) then
      selectLoopGo f rest n score
    else selectLoopGo f rest best bestScore

/-- The selection loop started on the whole class with a null best of
score -1, as in the source. -/
def selectLoop (env : Env) (st : QState) (q : Node) (index : Nat)
    (v_tn : TypeNode) (eqc : List Node) : Node × Int :=
  selectLoopGo (fun n => getRepScore env st n q index v_tn) eqc Node.null (-1)

/-- The call-scoped memoization table of getInstance: term to found
nested member, a stored none standing for the null Node of the C++
cache. -/
abbrev ICache := List (Node × Option Node)

mutual
/-- EqualityQueryQuantifiersEngine::getInstance: consult the cache,
else search the children left to right for a nested member of the
class, else the term itself when it is a member, else none; every
computed answer is stored in the cache. -/
def getInstance (eqc : List Node) : Node → ICache → Option Node × ICache
  | n, cache =>
    match assocGet cache n with
    | some res => (res, cache)
    | none =>
      match n with
      | .null =>
        if Node.null ∈ eqc then (some .null, (Node.null, some Node.null) :: cache)
        else (none, (Node.null, (none : Option Node)) :: cache)
      | .node k i t cs =>
        match getInstanceList eqc cs cache with
        | (some nn, cache2) => (some nn, (Node.node k i t cs, some nn) :: cache2)
        | (none, cache2) =>
          if Node.node k i t cs ∈ eqc then
            (some (Node.node k i t cs),
              (Node.node k i t cs, some (Node.node k i t cs)) :: cache2)
          else (none, (Node.node k i t cs, (none : Option Node)) :: cache2)
/-- The child loop of getInstance: first non-null recursive answer
wins, the cache threads through. -/
def getInstanceList (eqc : List Node) : NodeList → ICache → Option Node × ICache
  | .nil, cache => (none, cache)
  | .cons c rest, cache =>
    match getInstance eqc c cache with
    | (some nn, cache2) => (some nn, cache2)
    | (none, cache2) => getInstanceList eqc rest cache2
end

mutual
/-- Cache-free specification of getInstance: the same left-to-right,
children-before-node search without the memoization table. -/
def firstInst (eqc : List Node) : Node → Option Node
  | .null => if Node.null ∈ eqc then some .null else none
  | .node k i t cs =>
    match firstInstList eqc cs with
    | some nn => some nn
    | none =>
      if Node.node k i t cs ∈ eqc then some (Node.node k i t cs) else none
/-- Cache-free specification of the child loop of getInstance. -/
def firstInstList (eqc : List Node) : NodeList → Option Node
  | .nil => none
  | .cons c rest =>
    match firstInst eqc c with
    | some nn => some nn
    | none => firstInstList eqc rest
end

mutual
/-- Left-to-right post-order enumeration of the subterms of a term,
the node after its children: the visiting order of getInstance. -/
def postOrder : Node → List Node
  | .null => [.null]
  | .node k i t cs => postOrderList cs ++ [.node k i t cs]
/-- Post-order enumeration over a child list. -/
def postOrderList : NodeList → List Node
  | .nil => []
  | .cons h t => postOrder h ++ postOrderList t
end

/-- The earliest list member with the given score, null when none
has it: expresses tie-breaking by first enumeration. -/
def firstWithScore (f : Node → Int) (s : Int) : List Node → Node
  | [] => .null
  | n :: rest => if f n = s then n else firstWithScore f s rest

/-- The minimum of the non-negative scores of the list members, none
when every member scores negatively. -/
def minNonneg (f : Node → Int) : List Node → Option Int
  | [] => none
  | n :: rest =>
    match minNonneg f rest with
    | none => if 0 ≤ f n then some (f n) else none
    | some m => if 0 ≤ f n then some (min (f n) m) else some m

/-- The minimum of the non-negative scores strictly below the bound,
none when no member scores in that range. -/
def minNonnegBelow (f : Node → Int) (bs : Int) : List Node → Option Int
  | [] => none
  | n :: rest =>
    match minNonnegBelow f bs rest with
    | none => if 0 ≤ f n ∧ f n < bs then some (f n) else none
    | some m => if 0 ≤ f n ∧ f n < bs then some (min (f n) m) else some m

/-- Declarative winner of the selection loop: the first-enumerated
member with the minimal non-negative score when a member scores at
least 0, otherwise the first-enumerated member with score -1, and
null when every member is rejected. -/
def specWinner (f : Node → Int) (l : List Node) : Node :=
  match minNonneg f l with
  | some m => firstWithScore f m l
  | none => firstWithScore f (-1) l

/-- Result of the finite-model value-mapping step (lines 95 to 113 of
the source): the possibly remapped representative, and the status of
the Assert(false) fired when a constant of a user sort has no model
witness (false exactly when that assertion fails). -/
structure RemapResult where
  rep : Node
  fmfOk : Bool

/-- The finite-model value-mapping step of getInternalRepresentative:
when finite model finding is on and the representative is a constant
containing an uninterpreted constant, map it back through the model
value table and re-resolve through the equality engine; without a
witness the code keeps the representative, fatally asserting when its
type is a user sort. -/
def fmfRemap (env : Env) (r : Node) : RemapResult :=
  if env.opts.finiteModelFind then
    if r.isConst && containsUninterpretedConstant r then
      if env.hasModel then
        let tr := env.getTermForRepresentative r
        if !tr.isNull then
          ⟨getRepresentative env tr, true⟩
        else if env.isSort r.getType then ⟨r, false⟩
        else ⟨r, true⟩
      else ⟨r, true⟩
    else ⟨r, true⟩
  else ⟨r, true⟩

/-- The representative getInternalRepresentative works with: the
equality-engine representative of the query term, after the
finite-model value-mapping step. -/
def girRep (env : Env) (a : Node) : Node :=
  (fmfRemap env (getRepresentative env a)).rep

/-- Status of the assertion inside the finite-model value-mapping
step for the query term a. -/
def girFmfOk (env : Env) (a : Node) : Bool :=
  (fmfRemap env (getRepresentative env a)).fmfOk

/-- The target variable type of a query (line 120 of the source): the
type of bound variable index of q when q is present, the type of the
query term otherwise. -/
def girVarType (a q : Node) (index : Nat) : TypeNode :=
  if q.isNull then a.getType else ((q.child 0).child index).getType

/-- The winner of the selection loop before the instance guard, with
the raw representative as fallback when the loop selected nothing
(lines 149 to 162 of the source). -/
def girPreGuardWinner (env : Env) (st : QState) (a q : Node) (index : Nat) : Node :=
  let r := girRep env a
  let v_tn := girVarType a q index
  let eqc := getEquivalenceClass env r
  let rb := (selectLoop env st q index v_tn eqc).1
  if rb.isNull then r else rb

/-- Result record of getInternalRepresentative: the returned term, the
state after the call, and one boolean per Assert on the path, true
when the assertion holds or is not reached: preOk for the entry
Assert (q null or a FORALL), fmfOk for the Assert(false) of the
value-mapping step, eqcSelfOk for the self-membership Assert inside
getEquivalenceClass, typeOk for the subtype Assert before caching. -/
structure GIRResult where
  result : Node
  state : QState
  preOk : Bool
  fmfOk : Bool
  eqcSelfOk : Bool
  typeOk : Bool

/-- EqualityQueryQuantifiersEngine::getInternalRepresentative: resolve
the representative (with optional finite-model value mapping), return
it directly in equality-engine mode, otherwise consult the
per-variable-type cache, and on a miss score the equivalence class,
pick the winner with the raw representative as fallback, apply the
instance guard, record the first-chosen generation when new, check
the subtype assertion and cache the choice.  The C++ operator[] on
d_int_rep default-constructs an empty inner map on lookup; only the
miss path stores, so lookups through assocGet are unaffected. -/
def getInternalRepresentative (env : Env) (st : QState) (a q : Node)
    (index : Nat) : GIRResult :=
  let preOk : Bool := q.isNull || q.getKind = some Kind.FORALL
  let r := girRep env a
  let fmfOk := girFmfOk env a
  if env.opts.quantRepMode = QuantRepMode.EE then
    ⟨r, st, preOk, fmfOk, true, true⟩
  else
    let v_tn := girVarType a q index
    let v_int_rep := (assocGet st.d_int_rep v_tn).getD []
    match assocGet v_int_rep r with
    | some itir => ⟨itir, st, preOk, fmfOk, true, true⟩
    | none =>
      let eqc := getEquivalenceClass env r
      let eqcSelfOk : Bool := decide (r ∈ eqc)
      let r_best := girPreGuardWinner env st a q index
      let r_best2 := ((getInstance eqc r_best []).1).getD Node.null
      let st1 :=
        if assocGet st.d_rep_score r_best2 = none then
          { st with d_rep_score := assocSet st.d_rep_score r_best2 st.d_reset_count }
        else st
      let typeOk := env.isSubtypeOf r_best2.getType v_tn
      let st2 :=
        { st1 with d_int_rep := assocSet st1.d_int_rep v_tn (assocSet v_int_rep r r_best2) }
      ⟨r_best2, st2, preOk, fmfOk, eqcSelfOk, typeOk⟩

/-- The empty solver state. -/
def emptyState : QState := ⟨[], [], 0⟩

/-- A baseline environment: empty equality engine, no model, no
attributes, equality as the subtype relation, no user sorts, depth
mode, every filter off. -/
def baseEnv : Env :=
  { opts :=
      { finiteModelFind := false
        quantRepMode := QuantRepMode.DEPTH
        cbqi := false
        lteRestrictInstClosure := false
        instMaxLevel := -1
        instLevelInputOnly := true }
    ee := ⟨[], fun _ _ => false, fun _ _ => false⟩
    hasModel := false
    getTermForRepresentative := fun _ => Node.null
    hasInstConstAttr := fun _ => false
    instLevelAttr := fun _ => none
    isInstClosure := fun _ => true
    hasTermCurrent := fun _ => true
    isSubtypeOf := fun s t => s = t
    isSort := fun _ => false }

/-- A free variable of type 5, the query term of the type-soundness
counterexample. -/
def varA : Node := .node .VARIABLE 1 5 .nil

/-- A bound variable of type 7. -/
def bvB : Node := .node .BOUND_VARIABLE 2 7 .nil

/-- A quantified formula (FORALL) whose single bound variable has
type 7. -/
def qB : Node :=
  .node .FORALL 5 0
    (.cons (.node .BOUND_VAR_LIST 3 0 (.cons bvB .nil))
      (.cons (.node .CONST 4 0 .nil) .nil))

/-- A free variable of type 3. -/
def caN : Node := .node .VARIABLE 6 3 .nil

/-- The application term f(caN) of type 3, containing caN. -/
def faN : Node := .node .APPLY 7 3 (.cons caN .nil)

/-- An interpreted constant of type 3. -/
def cbN : Node := .node .CONST 11 3 .nil

/-- Environment of the reject-fallback counterexample: the
counterexample-guided filter is on, every term carries the
instantiation-constant attribute, and the engine knows the class
with representative faN and members faN and caN. -/
def envC2 : Env :=
  { baseEnv with
    opts := { baseEnv.opts with cbqi := true }
    ee := ⟨[(faN, faN), (caN, faN)], fun _ _ => false, fun _ _ => false⟩
    hasInstConstAttr := fun _ => true }

/-- Environment of the level-filter counterexample: a maximum
instantiation level is configured and the input-only flag is set. -/
def envC5 : Env :=
  { baseEnv with
    opts := { baseEnv.opts with instMaxLevel := 0, instLevelInputOnly := true } }

/-- Environment of the level-filter witness: a maximum instantiation
level is configured and the input-only flag is not set. -/
def envC5b : Env :=
  { baseEnv with
    opts := { baseEnv.opts with instMaxLevel := 0, instLevelInputOnly := false } }

/-- An uninterpreted constant of the user sort 9. -/
def ucN : Node := .node .UCONST 8 9 .nil

/-- An uninterpreted constant of the non-user sort 3. -/
def ucM : Node := .node .UCONST 12 3 .nil

/-- Environment of the finite-model value-mapping claims: finite
model finding on, a model present that provides no witnessing term,
and 9 the only user sort. -/
def envC8 : Env :=
  { baseEnv with
    opts := { baseEnv.opts with finiteModelFind := true }
    hasModel := true
    getTermForRepresentative := fun _ => Node.null
    isSort := fun t => t = 9 }

/-- Environment like envC8 but whose model maps every value to the
witnessing term caN, with caN registered in the engine with
representative cbN. -/
def envC8w : Env :=
  { baseEnv with
    opts := { baseEnv.opts with finiteModelFind := true }
    hasModel := true
    ee := ⟨[(caN, cbN)], fun _ _ => false, fun _ _ => false⟩
    getTermForRepresentative := fun _ => caN
    isSort := fun t => t = 9 }

/-- A solver state whose first-chosen table already maps caN to
generation 2. -/
def stC7 : QState := ⟨[], [(caN, 2)], 4⟩

theorem assocGet_assocSet_self {α β : Type} [DecidableEq α]
    (m : List (α × β)) (k : α) (v : β) :
    assocGet (assocSet m k v) k = some v := by
  induction m with
  | nil => simp [assocGet, assocSet]
  | cons p rest ih =>
    by_cases h : k = p.1
    · simp [assocGet, assocSet, h]
    · simp [assocGet, assocSet, h, ih]

theorem assocGet_assocSet_ne {α β : Type} [DecidableEq α]
    (m : List (α × β)) (k t : α) (v : β) (hne : t ≠ k) :
    assocGet (assocSet m k v) t = assocGet m t := by
  induction m with
  | nil => simp [assocGet, assocSet, hne]
  | cons p rest ih =>
    by_cases h : k = p.1
    · subst h
      simp [assocSet, assocGet, hne]
    · by_cases h2 : t = p.1
      · simp [assocSet, assocGet, h, h2]
      · simp [assocSet, assocGet, h, h2, ih]

theorem mem_of_assocGet {α β : Type} [DecidableEq α]
    {m : List (α × β)} {k : α} {v : β} (h : assocGet m k = some v) :
    (k, v) ∈ m := by
  induction m with
  | nil => simp [assocGet] at h
  | cons p rest ih =>
    by_cases hk : k = p.1
    · simp [assocGet, hk] at h
      subst hk
      obtain ⟨k1, v1⟩ := p
      simp only at h
      subst h
      exact List.mem_cons_self _ _
    · simp [assocGet, hk] at h
      exact List.mem_cons_of_mem _ (ih h)

theorem resetIter_rep_score (k : Nat) (st : QState) :
    (resetIter k st).d_rep_score = st.d_rep_score := by
  induction k generalizing st with
  | zero => rfl
  | succ n ih => simp [resetIter, ih, reset]

/-- Claim C7: reset clears the whole representative cache and
increments the generation counter by exactly one while leaving the
persistent first-chosen table untouched, across any number of resets;
and getInternalRepresentative writes the first-chosen table only for
terms with no entry yet, so an existing first-chosen generation
survives any call. -/
theorem c7_invalidate_frame (env : Env) (st : QState) (a q : Node) (index : Nat)
    (t : Node) (G : Nat) (k : Nat) (hG : assocGet st.d_rep_score t = some G) :
    (reset st).d_int_rep = [] ∧
    (reset st).d_reset_count = st.d_reset_count + 1 ∧
    (reset st).d_rep_score = st.d_rep_score ∧
    (resetIter k st).d_rep_score = st.d_rep_score ∧
    assocGet (getInternalRepresentative env st a q index).state.d_rep_score t
      = some G := by
  refine ⟨rfl, rfl, rfl, resetIter_rep_score k st, ?_⟩
  unfold getInternalRepresentative
  by_cases hm : env.opts.quantRepMode = QuantRepMode.EE
  · rw [if_pos hm]
    exact hG
  · rw [if_neg hm]
    cases hc : assocGet ((assocGet st.d_int_rep (girVarType a q index)).getD [])
        (girRep env a) with
    | some itir => simp only [hc]; exact hG
    | none =>
      simp only [hc]
      by_cases hw : assocGet st.d_rep_score
          (((getInstance (getEquivalenceClass env (girRep env a))
            (girPreGuardWinner env st a q index) []).1).getD Node.null) = none
      · have hne : t ≠ (((getInstance (getEquivalenceClass env (girRep env a))
            (girPreGuardWinner env st a q index) []).1).getD Node.null) := by
          intro he
          rw [he] at hG
          rw [hG] at hw
          exact Option.noConfusion hw
        rw [if_pos hw]
        exact (assocGet_assocSet_ne st.d_rep_score _ t _ hne).trans hG
      · rw [if_neg hw]
        exact hG

/-- Witness for C7 at a concrete state and call. -/
theorem c7_witness :
    (reset stC7).d_int_rep = [] ∧
    (reset stC7).d_reset_count = stC7.d_reset_count + 1 ∧
    (reset stC7).d_rep_score = stC7.d_rep_score ∧
    (resetIter 3 stC7).d_rep_score = stC7.d_rep_score ∧
    assocGet (getInternalRepresentative baseEnv stC7 caN Node.null 0).state.d_rep_score caN
      = some 2 :=
  c7_invalidate_frame baseEnv stC7 caN Node.null 0 caN 2 3 (by decide)

/-- Claim C8: in the finite-model value-mapping step, a constant
containing an uninterpreted constant with no model witness fatally
asserts when its type is a user sort, is kept unchanged (recovering)
when its type is not a user sort, and is replaced by the witnessing
term re-resolved through the equality engine when a witness exists. -/
theorem c8_fmf_value_mapping (env : Env) (r : Node)
    (h1 : env.opts.finiteModelFind = true) (h2 : r.isConst = true)
    (h3 : containsUninterpretedConstant r = true) (h4 : env.hasModel = true) :
    ((env.getTermForRepresentative r).isNull = true →
        env.isSort r.getType = true → fmfRemap env r = ⟨r, false⟩) ∧
    ((env.getTermForRepresentative r).isNull = true →
        env.isSort r.getType = false → fmfRemap env r = ⟨r, true⟩) ∧
    ((env.getTermForRepresentative r).isNull = false →
        fmfRemap env r
          = ⟨getRepresentative env (env.getTermForRepresentative r), true⟩) := by
  unfold fmfRemap
  rw [h1, h2, h3, h4]
  refine ⟨?_, ?_, ?_⟩
  · intro h5 h6
    simp [h5, h6]
  · intro h5 h6
    simp [h5, h6]
  · intro h5
    simp [h5]

/-- Witness for C8: the three branches at concrete inputs. -/
theorem c8_witness :
    fmfRemap envC8 ucN = ⟨ucN, false⟩ ∧
    fmfRemap envC8 ucM = ⟨ucM, true⟩ ∧
    fmfRemap envC8w ucN
      = ⟨getRepresentative envC8w (envC8w.getTermForRepresentative ucN), true⟩ :=
  ⟨(c8_fmf_value_mapping envC8 ucN rfl (by decide) (by decide) rfl).1
      (by decide) (by decide),
   (c8_fmf_value_mapping envC8 ucM rfl (by decide) (by decide) rfl).2.1
      (by decide) (by decide),
   (c8_fmf_value_mapping envC8w ucN rfl (by decide) (by decide) rfl).2.2
      (by decide)⟩

theorem getEquivalenceClass_self_mem (env : Env) (a : Node) :
    a ∈ getEquivalenceClass env a := by
  by_cases h : env.ee.hasTerm a
  · have hsome : ∃ rv, assocGet env.ee.terms a = some rv := by
      unfold EqEngine.hasTerm at h
      cases hx : assocGet env.ee.terms a with
      | none => rw [hx] at h; simp at h
      | some rv => exact ⟨rv, rfl⟩
    obtain ⟨rv, hrv⟩ := hsome
    have hmem : (a, rv) ∈ env.ee.terms := mem_of_assocGet hrv
    have hrep : env.ee.getRepresentative a = rv := by
      simp [EqEngine.getRepresentative, hrv]
    simp only [getEquivalenceClass, h, if_pos, EqEngine.eqClassIterator, hrep]
    exact List.mem_map.2 ⟨(a, rv), List.mem_filter.2 ⟨hmem, by simp⟩, rfl⟩
  · simp [getEquivalenceClass, h]

/-- Claim C9: the sequence produced by getEquivalenceClass always
contains the query term; it is the singleton of the term when the
engine does not know it, and the full engine class of its
representative when it does. -/
theorem c9_self_membership (env : Env) (a : Node) :
    (env.ee.hasTerm a = false → getEquivalenceClass env a = [a]) ∧
    (env.ee.hasTerm a = true →
        getEquivalenceClass env a
          = env.ee.eqClassIterator (env.ee.getRepresentative a)) ∧
    a ∈ getEquivalenceClass env a := by
  refine ⟨?_, ?_, ?_⟩
  · intro h
    simp [getEquivalenceClass, h]
  · intro h
    simp [getEquivalenceClass, h]
  · exact getEquivalenceClass_self_mem env a

/-- Witness for C9: an unregistered term yields its singleton, a
registered term is a member of its enumerated class. -/
theorem c9_witness :
    getEquivalenceClass baseEnv caN = [caN] ∧
    caN ∈ getEquivalenceClass envC2 caN :=
  ⟨(c9_self_membership baseEnv caN).1 (by decide),
   (c9_self_membership envC2 caN).2.2⟩

/-- Claim C10: areEqual is reflexively true and areDisequal
reflexively false regardless of registration; for distinct terms with
at least one unregistered, areEqual is false and areDisequal is true
exactly when both terms are constants. -/
theorem c10_unregistered_queries (env : Env) (a b : Node)
    (hne : a ≠ b) (hreg : env.ee.hasTerm a = false ∨ env.ee.hasTerm b = false) :
    areEqual env a a = true ∧ areDisequal env a a = false ∧
    areEqual env a b = false ∧
    (areDisequal env a b = true ↔ (a.isConst = true ∧ b.isConst = true)) := by
  have hand : (env.ee.hasTerm a && env.ee.hasTerm b) = false := by
    cases hreg with
    | inl h => simp [h]
    | inr h => simp [h]
  refine ⟨by simp [areEqual], by simp [areDisequal], ?_, ?_⟩
  · simp [areEqual, hne, hand]
  · simp [areDisequal, hne, hand]

/-- Witness for C10 at two distinct unregistered terms. -/
theorem c10_witness :
    areEqual baseEnv caN caN = true ∧ areDisequal baseEnv caN caN = false ∧
    areEqual baseEnv caN cbN = false ∧
    (areDisequal baseEnv caN cbN = true ↔ (caN.isConst = true ∧ cbN.isConst = true)) :=
  c10_unregistered_queries baseEnv caN cbN (by decide) (Or.inl (by decide))

theorem assocGet_firstInst {eqc : List Node} {cache : ICache} {n : Node}
    {v : Option Node} (hok : ∀ p ∈ cache, p.2 = firstInst eqc p.1)
    (hg : assocGet cache n = some v) : v = firstInst eqc n :=
  hok (n, v) (mem_of_assocGet hg)

mutual
/-- The memoized search getInstance computes the cache-free search
firstInst and preserves cache validity. -/
theorem getInstance_spec : ∀ (eqc : List Node) (n : Node) (cache : ICache),
    (∀ p ∈ cache, p.2 = firstInst eqc p.1) →
    (getInstance eqc n cache).1 = firstInst eqc n ∧
    (∀ p ∈ (getInstance eqc n cache).2, p.2 = firstInst eqc p.1)
  | eqc, .null, cache, hok => by
    cases hg : assocGet cache Node.null with
    | some v =>
      have hv := assocGet_firstInst hok hg
      constructor
      · simp only [getInstance, hg]
        exact hv
      · simp only [getInstance, hg]
        exact hok
    | none =>
      by_cases hin : Node.null ∈ eqc
      · constructor
        · simp only [getInstance, hg, if_pos hin, firstInst]
        · simp only [getInstance, hg, if_pos hin]
          intro p hp
          cases hp with
          | head => simp [firstInst, hin]
          | tail _ hmem => exact hok p hmem
      · constructor
        · simp only [getInstance, hg, if_neg hin, firstInst]
        · simp only [getInstance, hg, if_neg hin]
          intro p hp
          cases hp with
          | head => simp [firstInst, hin]
          | tail _ hmem => exact hok p hmem
  | eqc, .node k i t cs, cache, hok => by
    cases hg : assocGet cache (Node.node k i t cs) with
    | some v =>
      have hv := assocGet_firstInst hok hg
      constructor
      · simp only [getInstance, hg]
        exact hv
      · simp only [getInstance, hg]
        exact hok
    | none =>
      have hrec := getInstanceList_spec eqc cs cache hok
      rcases hL : getInstanceList eqc cs cache with ⟨res, cache2⟩
      rw [hL] at hrec
      obtain ⟨h1, h2⟩ := hrec
      simp only at h1 h2
      cases res with
      | some nn =>
        have hfi : firstInst eqc (Node.node k i t cs) = some nn := by
          simp only [firstInst, ← h1]
        constructor
        · simp only [getInstance, hg, hL, hfi]
        · simp only [getInstance, hg, hL]
          intro p hp
          cases hp with
          | head => simp only [hfi]
          | tail _ hmem => exact h2 p hmem
      | none =>
        by_cases hin : Node.node k i t cs ∈ eqc
        · have hfi : firstInst eqc (Node.node k i t cs) = some (Node.node k i t cs) := by
            simp only [firstInst, ← h1, if_pos hin]
          constructor
          · simp only [getInstance, hg, hL, if_pos hin, hfi]
          · simp only [getInstance, hg, hL, if_pos hin]
            intro p hp
            cases hp with
            | head => simp only [hfi]
            | tail _ hmem => exact h2 p hmem
        · have hfi : firstInst eqc (Node.node k i t cs) = none := by
            simp only [firstInst, ← h1, if_neg hin]
          constructor
          · simp only [getInstance, hg, hL, if_neg hin, hfi]
          · simp only [getInstance, hg, hL, if_neg hin]
            intro p hp
            cases hp with
            | head => simp only [hfi]
            | tail _ hmem => exact h2 p hmem
/-- The memoized child loop of getInstance computes the cache-free
child loop and preserves cache validity. -/
theorem getInstanceList_spec : ∀ (eqc : List Node) (l : NodeList) (cache : ICache),
    (∀ p ∈ cache, p.2 = firstInst eqc p.1) →
    (getInstanceList eqc l cache).1 = firstInstList eqc l ∧
    (∀ p ∈ (getInstanceList eqc l cache).2, p.2 = firstInst eqc p.1)
  | eqc, .nil, cache, hok => by
    constructor
    · simp only [getInstanceList, firstInstList]
    · simp only [getInstanceList]
      exact hok
  | eqc, .cons c rest, cache, hok => by
    have hrec := getInstance_spec eqc c cache hok
    rcases hC : getInstance eqc c cache with ⟨res, cache2⟩
    rw [hC] at hrec
    obtain ⟨h1, h2⟩ := hrec
    simp only at h1 h2
    cases res with
    | some nn =>
      constructor
      · simp only [getInstanceList, hC, firstInstList, ← h1]
      · simp only [getInstanceList, hC]
        exact h2
    | none =>
      have hrec2 := getInstanceList_spec eqc rest cache2 h2
      constructor
      · simp only [getInstanceList, hC, firstInstList, ← h1]
        exact hrec2.1
      · simp only [getInstanceList, hC]
        exact hrec2.2
end

/-- getInstance with the fresh cache of one selector call computes the
cache-free search. -/
theorem getInstance_empty (eqc : List Node) (n : Node) :
    (getInstance eqc n []).1 = firstInst eqc n :=
  (getInstance_spec eqc n [] (by intro p hp; cases hp)).1

mutual
/-- The cache-free search visits the subterms in left-to-right
post-order: children before the node, transitively, and returns the
first member of the class in that order. -/
theorem firstInst_eq_find : ∀ (eqc : List Node) (n : Node),
    firstInst eqc n = (postOrder n).find? (fun m => decide (m ∈ eqc))
  | eqc, .null => by
    by_cases hin : Node.null ∈ eqc
    · simp [firstInst, postOrder, List.find?, hin]
    · simp [firstInst, postOrder, List.find?, hin]
  | eqc, .node k i t cs => by
    rw [show postOrder (Node.node k i t cs)
        = postOrderList cs ++ [Node.node k i t cs] from rfl]
    rw [List.find?_append]
    rw [← firstInstList_eq_find eqc cs]
    cases hx : firstInstList eqc cs with
    | some nn => simp [firstInst, hx]
    | none =>
      by_cases hin : Node.node k i t cs ∈ eqc
      · simp [firstInst, hx, hin, List.find?]
      · simp [firstInst, hx, hin, List.find?]
/-- List form of the post-order characterization. -/
theorem firstInstList_eq_find : ∀ (eqc : List Node) (l : NodeList),
    firstInstList eqc l = (postOrderList l).find? (fun m => decide (m ∈ eqc))
  | eqc, .nil => by simp [firstInstList, postOrderList]
  | eqc, .cons c rest => by
    rw [show postOrderList (NodeList.cons c rest)
        = postOrder c ++ postOrderList rest from rfl]
    rw [List.find?_append]
    rw [← firstInst_eq_find eqc c, ← firstInstList_eq_find eqc rest]
    cases hx : firstInst eqc c with
    | some nn => simp [firstInstList, hx]
    | none => simp [firstInstList, hx]
end

theorem self_mem_postOrder (n : Node) : n ∈ postOrder n := by
  cases n with
  | null => simp [postOrder]
  | node k i t cs => simp [postOrder]

theorem find?_mem_isSome {p : Node → Bool} (l : List Node) (x : Node)
    (hx : x ∈ l) (hp : p x = true) : ∃ m, l.find? p = some m := by
  induction l with
  | nil => cases hx
  | cons h rest ih =>
    by_cases hh : p h
    · exact ⟨h, by simp [List.find?, hh]⟩
    · cases hx with
      | head =>
        rw [hp] at hh
        exact absurd rfl hh
      | tail _ hmem =>
        obtain ⟨m, hm⟩ := ih hmem
        have hf : p h = false := by simpa using hh
        exact ⟨m, by simp [List.find?_cons, hf, hm]⟩

/-- When the searched term is itself a member of the class, the
cache-free search always finds a member of the class. -/
theorem firstInst_mem (eqc : List Node) (n : Node) (hn : n ∈ eqc) :
    ∃ m, firstInst eqc n = some m ∧ m ∈ eqc := by
  rw [firstInst_eq_find]
  obtain ⟨m, hm⟩ := find?_mem_isSome (p := fun m => decide (m ∈ eqc))
    (postOrder n) n (self_mem_postOrder n) (by simpa using hn)
  refine ⟨m, hm, ?_⟩
  have := List.find?_some hm
  simpa using this

/-- Any non-null answer of the cache-free search is a member of the
class. -/
theorem firstInst_some_mem (eqc : List Node) (n m : Node)
    (h : firstInst eqc n = some m) : m ∈ eqc := by
  rw [firstInst_eq_find] at h
  have := List.find?_some h
  simpa using this

/-- The selection loop keeps either its initial best or a list
member. -/
theorem selectLoopGo_mem (f : Node → Int) : ∀ (l : List Node) (b : Node) (bs : Int),
    (selectLoopGo f l b bs).1 = b ∨ (selectLoopGo f l b bs).1 ∈ l := by
  intro l
  induction l with
  | nil => intro b bs; left; rfl
  | cons n rest ih =>
    intro b bs
    simp only [selectLoopGo]
    by_cases h2 : f n = -2
    · rw [if_pos h2]
      cases ih b bs with
      | inl h => left; exact h
      | inr h => right; exact List.mem_cons_of_mem _ h
    · rw [if_neg h2]
      by_cases hup : Node.isNull b = true ∨ 0 ≤ f n ∧ (bs < 0 ∨ f n < bs)
      · rw [if_pos hup]
        cases ih n (f n) with
        | inl h => right; rw [h]; exact List.mem_cons_self _ _
        | inr h => right; exact List.mem_cons_of_mem _ h
      · rw [if_neg hup]
        cases ih b bs with
        | inl h => left; exact h
        | inr h => right; exact List.mem_cons_of_mem _ h

theorem gir_ee (env : Env) (st : QState) (a q : Node) (index : Nat)
    (hm : env.opts.quantRepMode = QuantRepMode.EE) :
    (getInternalRepresentative env st a q index).result = girRep env a ∧
    (getInternalRepresentative env st a q index).state = st ∧
    (getInternalRepresentative env st a q index).typeOk = true := by
  unfold getInternalRepresentative
  rw [if_pos hm]
  refine ⟨?_, ?_, ?_⟩ <;> trivial

theorem gir_hit (env : Env) (st : QState) (a q : Node) (index : Nat) (itir : Node)
    (hm : env.opts.quantRepMode ≠ QuantRepMode.EE)
    (hc : assocGet ((assocGet st.d_int_rep (girVarType a q index)).getD [])
      (girRep env a) = some itir) :
    (getInternalRepresentative env st a q index).result = itir ∧
    (getInternalRepresentative env st a q index).state = st ∧
    (getInternalRepresentative env st a q index).typeOk = true := by
  unfold getInternalRepresentative
  rw [if_neg hm]
  simp only [hc]
  refine ⟨?_, ?_, ?_⟩ <;> trivial

theorem gir_miss (env : Env) (st : QState) (a q : Node) (index : Nat)
    (hm : env.opts.quantRepMode ≠ QuantRepMode.EE)
    (hc : assocGet ((assocGet st.d_int_rep (girVarType a q index)).getD [])
      (girRep env a) = none) :
    (getInternalRepresentative env st a q index).result
      = ((getInstance (getEquivalenceClass env (girRep env a))
          (girPreGuardWinner env st a q index) []).1).getD Node.null ∧
    (getInternalRepresentative env st a q index).typeOk
      = env.isSubtypeOf (((getInstance (getEquivalenceClass env (girRep env a))
          (girPreGuardWinner env st a q index) []).1).getD Node.null).getType
          (girVarType a q index) ∧
    (getInternalRepresentative env st a q index).state.d_int_rep
      = assocSet st.d_int_rep (girVarType a q index)
          (assocSet ((assocGet st.d_int_rep (girVarType a q index)).getD [])
            (girRep env a)
            (((getInstance (getEquivalenceClass env (girRep env a))
              (girPreGuardWinner env st a q index) []).1).getD Node.null)) := by
  unfold getInternalRepresentative
  rw [if_neg hm]
  simp only [hc]
  refine ⟨by trivial, by trivial, ?_⟩
  by_cases hw : assocGet st.d_rep_score
      (((getInstance (getEquivalenceClass env (girRep env a))
        (girPreGuardWinner env st a q index) []).1).getD Node.null) = none
  · rw [if_pos hw]
  · rw [if_neg hw]

/-- The pre-guard winner is always a member of the enumerated
equivalence class of the representative. -/
theorem girPreGuardWinner_mem (env : Env) (st : QState) (a q : Node) (index : Nat) :
    girPreGuardWinner env st a q index ∈ getEquivalenceClass env (girRep env a) := by
  unfold girPreGuardWinner selectLoop
  by_cases hnull : ((selectLoopGo
      (fun n => getRepScore env st n q index (girVarType a q index))
      (getEquivalenceClass env (girRep env a)) Node.null (-1)).1).isNull = true
  · rw [if_pos hnull]
    exact getEquivalenceClass_self_mem env (girRep env a)
  · rw [if_neg hnull]
    cases selectLoopGo_mem
        (fun n => getRepScore env st n q index (girVarType a q index))
        (getEquivalenceClass env (girRep env a)) Node.null (-1) with
    | inl h => rw [h] at hnull; exact absurd rfl hnull
    | inr h => exact h

/-- The instance-guard result of the selector call is always a member
of the enumerated equivalence class. -/
theorem gir_guardResult_mem (env : Env) (st : QState) (a q : Node) (index : Nat) :
    ((getInstance (getEquivalenceClass env (girRep env a))
      (girPreGuardWinner env st a q index) []).1).getD Node.null
      ∈ getEquivalenceClass env (girRep env a) := by
  obtain ⟨m, h1, h2⟩ := firstInst_mem (getEquivalenceClass env (girRep env a))
    (girPreGuardWinner env st a q index) (girPreGuardWinner_mem env st a q index)
  rw [getInstance_empty, h1]
  exact h2

/-- Counterexample to claim C1 as stated: with an empty equality
engine, a query term of type 5 against a bound variable of type 7 is
rejected by the type filter, the fallback returns the raw
representative, and the subtype assertion fails. -/
theorem c1_counterexample :
    (getInternalRepresentative baseEnv emptyState varA qB 0).typeOk = false ∧
    baseEnv.isSubtypeOf
      (getInternalRepresentative baseEnv emptyState varA qB 0).result.getType
      (girVarType varA qB 0) = false := by decide

/-- Claim C1, amended: when every member of the enumerated
equivalence class of the (post value-mapping) representative has a
type that is a subtype of the target variable type, the subtype
assertion holds; and in engine-direct mode or on a cache miss the
returned term then has a type that is a subtype of the target
variable type. -/
theorem c1_type_soundness (env : Env) (st : QState) (a q : Node) (index : Nat)
    (h : ∀ m ∈ getEquivalenceClass env (girRep env a),
      env.isSubtypeOf m.getType (girVarType a q index) = true) :
    (getInternalRepresentative env st a q index).typeOk = true ∧
    ((env.opts.quantRepMode = QuantRepMode.EE ∨
        assocGet ((assocGet st.d_int_rep (girVarType a q index)).getD [])
          (girRep env a) = none) →
      env.isSubtypeOf
        (getInternalRepresentative env st a q index).result.getType
        (girVarType a q index) = true) := by
  by_cases hm : env.opts.quantRepMode = QuantRepMode.EE
  · obtain ⟨h1, _, h3⟩ := gir_ee env st a q index hm
    refine ⟨h3, fun _ => ?_⟩
    rw [h1]
    exact h (girRep env a) (getEquivalenceClass_self_mem env (girRep env a))
  · cases hc : assocGet ((assocGet st.d_int_rep (girVarType a q index)).getD [])
        (girRep env a) with
    | some itir =>
      obtain ⟨_, _, h3⟩ := gir_hit env st a q index itir hm hc
      refine ⟨h3, fun hd => ?_⟩
      cases hd with
      | inl hd => exact absurd hd hm
      | inr hd => exact Option.noConfusion hd
    | none =>
      obtain ⟨h1, h2, _⟩ := gir_miss env st a q index hm hc
      have hsub := h _ (gir_guardResult_mem env st a q index)
      exact ⟨by rw [h2]; exact hsub, fun _ => by rw [h1]; exact hsub⟩

/-- Witness for the amended C1 at a type-homogeneous concrete input. -/
theorem c1_witness :
    (getInternalRepresentative baseEnv emptyState caN Node.null 0).typeOk = true ∧
    baseEnv.isSubtypeOf
      (getInternalRepresentative baseEnv emptyState caN Node.null 0).result.getType
      (girVarType caN Node.null 0) = true :=
  ⟨(c1_type_soundness baseEnv emptyState caN Node.null 0 (by decide)).1,
   (c1_type_soundness baseEnv emptyState caN Node.null 0 (by decide)).2
     (Or.inr (by decide))⟩

theorem selectLoopGo_allreject (f : Node → Int) :
    ∀ (l : List Node) (b : Node) (bs : Int), (∀ n ∈ l, f n = -2) →
    selectLoopGo f l b bs = (b, bs) := by
  intro l
  induction l with
  | nil => intro b bs _; rfl
  | cons n rest ih =>
    intro b bs hall
    simp only [selectLoopGo]
    rw [if_pos (hall n (List.mem_cons_self _ _))]
    exact ih b bs (fun m hm => hall m (List.mem_cons_of_mem _ hm))

/-- When every class member is rejected, the scored winner falls back
to the raw representative. -/
theorem girPreGuardWinner_eq_rep (env : Env) (st : QState) (a q : Node) (index : Nat)
    (hall : ∀ m ∈ getEquivalenceClass env (girRep env a),
      getRepScore env st m q index (girVarType a q index) = -2) :
    girPreGuardWinner env st a q index = girRep env a := by
  simp only [girPreGuardWinner, selectLoop]
  rw [selectLoopGo_allreject _ _ _ _ hall]
  rfl

/-- Counterexample to claim C2 as stated: with the
counterexample-guided filter rejecting every member of the class of
f(a) (members f(a) and a, representative f(a)), the selector does not
return the raw representative f(a): the instance guard replaces it by
the nested member a. -/
theorem c2_counterexample :
    getRepresentative envC2 faN = faN ∧
    (∀ m ∈ getEquivalenceClass envC2 faN,
      getRepScore envC2 emptyState m Node.null 0 (girVarType faN Node.null 0) = -2) ∧
    (getInternalRepresentative envC2 emptyState faN Node.null 0).result ≠ faN := by
  decide

/-- Claim C2, amended: on a cache miss in which every member of the
enumerated equivalence class scores -2, the scored winner falls back
to the raw representative r, but the instance guard is still applied:
the returned term is the first member of the class in left-to-right
post-order over the subterms of r, which is r itself exactly when no
class member is nested inside r. -/
theorem c2_reject_fallback (env : Env) (st : QState) (a q : Node) (index : Nat)
    (hm : env.opts.quantRepMode ≠ QuantRepMode.EE)
    (hc : assocGet ((assocGet st.d_int_rep (girVarType a q index)).getD [])
      (girRep env a) = none)
    (hall : ∀ m ∈ getEquivalenceClass env (girRep env a),
      getRepScore env st m q index (girVarType a q index) = -2) :
    (getInternalRepresentative env st a q index).result
      = (((postOrder (girRep env a)).find?
          (fun m => decide (m ∈ getEquivalenceClass env (girRep env a)))).getD
          Node.null) := by
  obtain ⟨h1, _, _⟩ := gir_miss env st a q index hm hc
  rw [h1, getInstance_empty, girPreGuardWinner_eq_rep env st a q index hall,
    firstInst_eq_find]

/-- Witness for the amended C2 at the concrete all-rejected class. -/
theorem c2_witness :
    (getInternalRepresentative envC2 emptyState faN Node.null 0).result
      = (((postOrder (girRep envC2 faN)).find?
          (fun m => decide (m ∈ getEquivalenceClass envC2 (girRep envC2 faN)))).getD
          Node.null) :=
  c2_reject_fallback envC2 emptyState faN Node.null 0 (by decide) (by decide)
    (by decide)

/-- Claim C3: a second call with the same arguments and engine state
and no intervening reset returns the identical term and leaves the
state unchanged; outside engine-direct mode the second call hits the
cache entry stored by the first and returns exactly the cached term. -/
theorem c3_idempotence (env : Env) (st : QState) (a q : Node) (index : Nat) :
    (getInternalRepresentative env
        (getInternalRepresentative env st a q index).state a q index).result
      = (getInternalRepresentative env st a q index).result ∧
    (getInternalRepresentative env
        (getInternalRepresentative env st a q index).state a q index).state
      = (getInternalRepresentative env st a q index).state ∧
    (env.opts.quantRepMode ≠ QuantRepMode.EE →
      assocGet ((assocGet (getInternalRepresentative env st a q index).state.d_int_rep
          (girVarType a q index)).getD []) (girRep env a)
        = some (getInternalRepresentative env st a q index).result) := by
  by_cases hm : env.opts.quantRepMode = QuantRepMode.EE
  · obtain ⟨h1, h2, _⟩ := gir_ee env st a q index hm
    refine ⟨?_, ?_, fun hne => absurd hm hne⟩
    · rw [h2]
    · rw [h2]
      exact h2
  · cases hc : assocGet ((assocGet st.d_int_rep (girVarType a q index)).getD [])
        (girRep env a) with
    | some itir =>
      obtain ⟨h1, h2, _⟩ := gir_hit env st a q index itir hm hc
      refine ⟨by rw [h2], by rw [h2]; exact h2, fun _ => ?_⟩
      rw [h2, h1]
      exact hc
    | none =>
      obtain ⟨h1, _, h3⟩ := gir_miss env st a q index hm hc
      have hhit : assocGet
          ((assocGet (getInternalRepresentative env st a q index).state.d_int_rep
            (girVarType a q index)).getD []) (girRep env a)
          = some (getInternalRepresentative env st a q index).result := by
        rw [h3, h1, assocGet_assocSet_self]
        simp only [Option.getD_some]
        exact assocGet_assocSet_self _ _ _
      obtain ⟨g1, g2, _⟩ := gir_hit env
        ((getInternalRepresentative env st a q index).state) a q index
        ((getInternalRepresentative env st a q index).result) hm hhit
      exact ⟨g1, g2, fun _ => hhit⟩

/-- Witness for C3 at a concrete call. -/
theorem c3_witness :
    (getInternalRepresentative baseEnv
        (getInternalRepresentative baseEnv emptyState caN Node.null 0).state
        caN Node.null 0).result
      = (getInternalRepresentative baseEnv emptyState caN Node.null 0).result ∧
    (getInternalRepresentative baseEnv
        (getInternalRepresentative baseEnv emptyState caN Node.null 0).state
        caN Node.null 0).state
      = (getInternalRepresentative baseEnv emptyState caN Node.null 0).state ∧
    assocGet
        ((assocGet (getInternalRepresentative baseEnv emptyState caN Node.null 0).state.d_int_rep
          (girVarType caN Node.null 0)).getD []) (girRep baseEnv caN)
      = some (getInternalRepresentative baseEnv emptyState caN Node.null 0).result :=
  ⟨(c3_idempotence baseEnv emptyState caN Node.null 0).1,
   (c3_idempotence baseEnv emptyState caN Node.null 0).2.1,
   (c3_idempotence baseEnv emptyState caN Node.null 0).2.2 (by decide)⟩

/-- Claim C6: getInstance with the fresh cache of one call performs a
left-to-right, children-before-node (deepest-first) search: it
returns the first term in post-order over the subterms of the
candidate that is a member of the class (the candidate itself only
when no proper subterm is), and none when neither holds; accordingly
on a cache miss the term returned by getInternalRepresentative is the
first class member in post-order over the scored winner. -/
theorem c6_instance_guard (eqc : List Node) (n : Node) (env : Env) (st : QState)
    (a q : Node) (index : Nat)
    (hm : env.opts.quantRepMode ≠ QuantRepMode.EE)
    (hc : assocGet ((assocGet st.d_int_rep (girVarType a q index)).getD [])
      (girRep env a) = none) :
    (getInstance eqc n []).1 = (postOrder n).find? (fun m => decide (m ∈ eqc)) ∧
    (getInternalRepresentative env st a q index).result
      = (((postOrder (girPreGuardWinner env st a q index)).find?
          (fun m => decide (m ∈ getEquivalenceClass env (girRep env a)))).getD
          Node.null) := by
  constructor
  · rw [getInstance_empty, firstInst_eq_find]
  · obtain ⟨h1, _, _⟩ := gir_miss env st a q index hm hc
    rw [h1, getInstance_empty, firstInst_eq_find]

/-- Witness for C6 at the concrete class of f(a): the nested member a
is returned instead of the scored winner f(a). -/
theorem c6_witness :
    (getInstance [faN, caN] faN []).1
      = (postOrder faN).find? (fun m => decide (m ∈ [faN, caN])) ∧
    (getInternalRepresentative envC2 emptyState faN Node.null 0).result
      = (((postOrder (girPreGuardWinner envC2 emptyState faN Node.null 0)).find?
          (fun m => decide (m ∈ getEquivalenceClass envC2 (girRep envC2 faN)))).getD
          Node.null) :=
  c6_instance_guard [faN, caN] faN envC2 emptyState faN Node.null 0 (by decide)
    (by decide)

/-- Counterexample to claim C5 as stated: with a maximum
instantiation level configured and the input-only flag
(instLevelInputOnly) set, a candidate lacking the instantiation-level
attribute that passes the earlier tiers scores -1, not 0 as the claim
predicts for the set flag. -/
theorem c5_counterexample :
    getRepScore envC5 emptyState caN Node.null 0 3 = -1 ∧
    ¬(getRepScore envC5 emptyState caN Node.null 0 3 = 0) := by decide

/-- Claim C5, amended: when a maximum instantiation level is
configured and a candidate passes the earlier reject/undesired tiers,
a candidate carrying an instantiation-level attribute scores exactly
that level, and a candidate lacking it scores 0 (treated as level 0)
unless the input-only flag (instLevelInputOnly) is set, in which case
it scores -1 (undesired). -/
theorem c5_level_filter (env : Env) (st : QState) (n q : Node) (index : Nat)
    (v_tn : TypeNode)
    (h1 : (env.opts.cbqi && env.hasInstConstAttr n) = false)
    (h2 : env.isSubtypeOf n.getType v_tn = true)
    (h3 : (env.opts.lteRestrictInstClosure &&
      (!(env.isInstClosure n) || !(env.hasTermCurrent n))) = false)
    (h4 : env.opts.instMaxLevel ≠ -1) :
    (∀ l, env.instLevelAttr n = some l →
      getRepScore env st n q index v_tn = (l : Int)) ∧
    (env.instLevelAttr n = none →
      getRepScore env st n q index v_tn
        = if env.opts.instLevelInputOnly then -1 else 0) := by
  constructor
  · intro l hl
    simp [getRepScore, h1, h2, h3, h4, hl]
  · intro hl
    simp [getRepScore, h1, h2, h3, h4, hl]

/-- Witness for the amended C5: with the flag unset the missing
attribute scores as level 0, with the flag set it scores -1. -/
theorem c5_witness :
    getRepScore envC5b emptyState caN Node.null 0 3
      = (if envC5b.opts.instLevelInputOnly then -1 else 0) ∧
    getRepScore envC5 emptyState caN Node.null 0 3
      = (if envC5.opts.instLevelInputOnly then -1 else 0) :=
  ⟨(c5_level_filter envC5b emptyState caN Node.null 0 3 (by decide) (by decide)
      (by decide) (by decide)).2 rfl,
   (c5_level_filter envC5 emptyState caN Node.null 0 3 (by decide) (by decide)
      (by decide) (by decide)).2 rfl⟩


theorem isNull_iff (b : Node) : b.isNull = true ↔ b = Node.null := by
  cases b <;> simp [Node.isNull]

theorem minNonnegBelow_none_iff (f : Node → Int) (bs : Int) :
    ∀ (l : List Node), minNonnegBelow f bs l = none
      ↔ ∀ x ∈ l, ¬(0 ≤ f x ∧ f x < bs) := by
  intro l
  induction l with
  | nil => simp [minNonnegBelow]
  | cons n rest ih =>
    cases hr : minNonnegBelow f bs rest with
    | none =>
      simp only [minNonnegBelow, hr]
      by_cases hcond : 0 ≤ f n ∧ f n < bs
      · rw [if_pos hcond]
        refine iff_of_false (fun hx => Option.noConfusion hx) (fun hx => ?_)
        exact (hx n (List.mem_cons_self _ _)) hcond
      · rw [if_neg hcond]
        refine iff_of_true rfl (fun x hx => ?_)
        cases hx with
        | head => exact hcond
        | tail _ hmem => exact (ih.1 hr) x hmem
    | some m =>
      simp only [minNonnegBelow, hr]
      refine iff_of_false ?_ ?_
      · by_cases hcond : 0 ≤ f n ∧ f n < bs
        · rw [if_pos hcond]
          exact fun hx => Option.noConfusion hx
        · rw [if_neg hcond]
          exact fun hx => Option.noConfusion hx
      · intro hx
        have h2 : minNonnegBelow f bs rest = none :=
          ih.2 (fun x hmem => hx x (List.mem_cons_of_mem _ hmem))
        rw [hr] at h2
        exact Option.noConfusion h2

theorem minNonnegBelow_some (f : Node → Int) (bs : Int) :
    ∀ (l : List Node) (m : Int), minNonnegBelow f bs l = some m →
    0 ≤ m ∧ m < bs ∧ (∃ x ∈ l, f x = m) ∧
      (∀ x ∈ l, 0 ≤ f x → f x < bs → m ≤ f x) := by
  intro l
  induction l with
  | nil => intro m hm; simp [minNonnegBelow] at hm
  | cons n rest ih =>
    intro m hm
    cases hr : minNonnegBelow f bs rest with
    | none =>
      simp only [minNonnegBelow, hr] at hm
      by_cases hcond : 0 ≤ f n ∧ f n < bs
      · rw [if_pos hcond] at hm
        injection hm with hm
        subst hm
        refine ⟨hcond.1, hcond.2, ⟨n, List.mem_cons_self _ _, rfl⟩, ?_⟩
        intro x hx h0 hb
        cases hx with
        | head => exact le_refl _
        | tail _ hmem =>
          exact absurd ⟨h0, hb⟩ (((minNonnegBelow_none_iff f bs rest).1 hr) x hmem)
      · rw [if_neg hcond] at hm
        exact Option.noConfusion hm
    | some m0 =>
      simp only [minNonnegBelow, hr] at hm
      obtain ⟨ha, hb, ⟨x0, hx0, hfx0⟩, hlb⟩ := ih m0 hr
      by_cases hcond : 0 ≤ f n ∧ f n < bs
      · rw [if_pos hcond] at hm
        injection hm with hm
        subst hm
        refine ⟨le_min hcond.1 ha, lt_of_le_of_lt (min_le_right _ _) hb, ?_, ?_⟩
        · rcases le_total (f n) m0 with hle | hle
          · exact ⟨n, List.mem_cons_self _ _, (min_eq_left hle).symm⟩
          · exact ⟨x0, List.mem_cons_of_mem _ hx0, by rw [min_eq_right hle, hfx0]⟩
        · intro x hx h0 hbx
          cases hx with
          | head => exact min_le_left _ _
          | tail _ hmem => exact le_trans (min_le_right _ _) (hlb x hmem h0 hbx)
      · rw [if_neg hcond] at hm
        injection hm with hm
        subst hm
        refine ⟨ha, hb, ⟨x0, List.mem_cons_of_mem _ hx0, hfx0⟩, ?_⟩
        intro x hx h0 hbx
        cases hx with
        | head => exact absurd ⟨h0, hbx⟩ hcond
        | tail _ hmem => exact hlb x hmem h0 hbx

theorem minNonnegBelow_intro (f : Node → Int) (bs : Int) (l : List Node) (m : Int)
    (h0 : 0 ≤ m) (h1 : m < bs) (hex : ∃ x ∈ l, f x = m)
    (hlb : ∀ x ∈ l, 0 ≤ f x → f x < bs → m ≤ f x) :
    minNonnegBelow f bs l = some m := by
  cases hr : minNonnegBelow f bs l with
  | none =>
    obtain ⟨x, hx, hfx⟩ := hex
    exact absurd ⟨by omega, by omega⟩ (((minNonnegBelow_none_iff f bs l).1 hr) x hx)
  | some m0 =>
    obtain ⟨ha, hb, ⟨x0, hx0, hfx0⟩, hlb0⟩ := minNonnegBelow_some f bs l m0 hr
    obtain ⟨x, hx, hfx⟩ := hex
    have h2 : m0 ≤ m := by
      have := hlb0 x hx (by omega) (by omega)
      omega
    have h3 : m ≤ m0 := by
      have := hlb x0 hx0 (by omega) (by omega)
      omega
    rw [show m = m0 by omega]

theorem minNonneg_none_iff (f : Node → Int) :
    ∀ (l : List Node), minNonneg f l = none ↔ ∀ x ∈ l, ¬(0 ≤ f x) := by
  intro l
  induction l with
  | nil => simp [minNonneg]
  | cons n rest ih =>
    cases hr : minNonneg f rest with
    | none =>
      simp only [minNonneg, hr]
      by_cases hcond : 0 ≤ f n
      · rw [if_pos hcond]
        refine iff_of_false (fun hx => Option.noConfusion hx) (fun hx => ?_)
        exact (hx n (List.mem_cons_self _ _)) hcond
      · rw [if_neg hcond]
        refine iff_of_true rfl (fun x hx => ?_)
        cases hx with
        | head => exact hcond
        | tail _ hmem => exact (ih.1 hr) x hmem
    | some m =>
      simp only [minNonneg, hr]
      refine iff_of_false ?_ ?_
      · by_cases hcond : 0 ≤ f n
        · rw [if_pos hcond]
          exact fun hx => Option.noConfusion hx
        · rw [if_neg hcond]
          exact fun hx => Option.noConfusion hx
      · intro hx
        have h2 : minNonneg f rest = none :=
          ih.2 (fun x hmem => hx x (List.mem_cons_of_mem _ hmem))
        rw [hr] at h2
        exact Option.noConfusion h2

theorem minNonneg_some (f : Node → Int) :
    ∀ (l : List Node) (m : Int), minNonneg f l = some m →
    0 ≤ m ∧ (∃ x ∈ l, f x = m) ∧ (∀ x ∈ l, 0 ≤ f x → m ≤ f x) := by
  intro l
  induction l with
  | nil => intro m hm; simp [minNonneg] at hm
  | cons n rest ih =>
    intro m hm
    cases hr : minNonneg f rest with
    | none =>
      simp only [minNonneg, hr] at hm
      by_cases hcond : 0 ≤ f n
      · rw [if_pos hcond] at hm
        injection hm with hm
        subst hm
        refine ⟨hcond, ⟨n, List.mem_cons_self _ _, rfl⟩, ?_⟩
        intro x hx h0
        cases hx with
        | head => exact le_refl _
        | tail _ hmem =>
          exact absurd h0 (((minNonneg_none_iff f rest).1 hr) x hmem)
      · rw [if_neg hcond] at hm
        exact Option.noConfusion hm
    | some m0 =>
      simp only [minNonneg, hr] at hm
      obtain ⟨ha, ⟨x0, hx0, hfx0⟩, hlb⟩ := ih m0 hr
      by_cases hcond : 0 ≤ f n
      · rw [if_pos hcond] at hm
        injection hm with hm
        subst hm
        refine ⟨le_min hcond ha, ?_, ?_⟩
        · rcases le_total (f n) m0 with hle | hle
          · exact ⟨n, List.mem_cons_self _ _, (min_eq_left hle).symm⟩
          · exact ⟨x0, List.mem_cons_of_mem _ hx0, by rw [min_eq_right hle, hfx0]⟩
        · intro x hx h0
          cases hx with
          | head => exact min_le_left _ _
          | tail _ hmem => exact le_trans (min_le_right _ _) (hlb x hmem h0)
      · rw [if_neg hcond] at hm
        injection hm with hm
        subst hm
        refine ⟨ha, ⟨x0, List.mem_cons_of_mem _ hx0, hfx0⟩, ?_⟩
        intro x hx h0
        cases hx with
        | head => exact absurd h0 hcond
        | tail _ hmem => exact hlb x hmem h0

theorem minNonneg_intro (f : Node → Int) (l : List Node) (m : Int)
    (h0 : 0 ≤ m) (hex : ∃ x ∈ l, f x = m)
    (hlb : ∀ x ∈ l, 0 ≤ f x → m ≤ f x) :
    minNonneg f l = some m := by
  cases hr : minNonneg f l with
  | none =>
    obtain ⟨x, hx, hfx⟩ := hex
    exact absurd (show (0:Int) ≤ f x by omega) (((minNonneg_none_iff f l).1 hr) x hx)
  | some m0 =>
    obtain ⟨ha, ⟨x0, hx0, hfx0⟩, hlb0⟩ := minNonneg_some f l m0 hr
    obtain ⟨x, hx, hfx⟩ := hex
    have h2 : m0 ≤ m := by
      have := hlb0 x hx (by omega)
      omega
    have h3 : m ≤ m0 := by
      have := hlb x0 hx0 (by omega)
      omega
    rw [show m = m0 by omega]

theorem firstWithScore_cons_ne (f : Node → Int) (n : Node) (rest : List Node)
    (s : Int) (h : f n ≠ s) :
    firstWithScore f s (n :: rest) = firstWithScore f s rest := by
  simp [firstWithScore, h]

theorem firstWithScore_cons_self (f : Node → Int) (n : Node) (rest : List Node)
    (s : Int) (h : f n = s) : firstWithScore f s (n :: rest) = n := by
  simp [firstWithScore, h]

theorem minNonneg_cons_skip (f : Node → Int) (n : Node) (rest : List Node)
    (h : ¬(0 ≤ f n)) : minNonneg f (n :: rest) = minNonneg f rest := by
  cases hr : minNonneg f rest <;> simp [minNonneg, hr, h]

theorem minNonnegBelow_cons_skip (f : Node → Int) (bs : Int) (n : Node)
    (rest : List Node) (h : ¬(0 ≤ f n ∧ f n < bs)) :
    minNonnegBelow f bs (n :: rest) = minNonnegBelow f bs rest := by
  cases hr : minNonnegBelow f bs rest <;> simp [minNonnegBelow, hr, h]

theorem selectLoopGo_pos_none (f : Node → Int) :
    ∀ (l : List Node) (b : Node) (bs : Int), b ≠ Node.null → Node.null ∉ l →
    0 ≤ bs → minNonnegBelow f bs l = none → selectLoopGo f l b bs = (b, bs) := by
  intro l
  induction l with
  | nil => intro b bs _ _ _ _; rfl
  | cons n rest ih =>
    intro b bs hb hnl hbs hr
    have hbnull : b.isNull = false := by
      cases b with
      | null => exact absurd rfl hb
      | node k i t cs => rfl
    have hnmem : Node.null ∉ rest := fun h => hnl (List.mem_cons_of_mem _ h)
    have hfail := (minNonnegBelow_none_iff f bs (n :: rest)).1 hr
    have hhead := hfail n (List.mem_cons_self _ _)
    have hrest : minNonnegBelow f bs rest = none :=
      (minNonnegBelow_none_iff f bs rest).2
        (fun x hmem => hfail x (List.mem_cons_of_mem _ hmem))
    simp only [selectLoopGo]
    by_cases h2 : f n = -2
    · rw [if_pos h2]
      exact ih b bs hb hnmem hbs hrest
    · rw [if_neg h2]
      have hcond : ¬(b.isNull = true ∨ (0 ≤ f n ∧ (bs < 0 ∨ f n < bs))) := by
        intro hc
        cases hc with
        | inl hcc => rw [hbnull] at hcc; exact Bool.noConfusion hcc
        | inr hcc =>
          apply hhead
          refine ⟨hcc.1, ?_⟩
          cases hcc.2 with
          | inl h3 => omega
          | inr h3 => exact h3
      rw [if_neg hcond]
      exact ih b bs hb hnmem hbs hrest

theorem selectLoopGo_pos_some (f : Node → Int) :
    ∀ (l : List Node) (b : Node) (bs m : Int), b ≠ Node.null → Node.null ∉ l →
    0 ≤ bs → minNonnegBelow f bs l = some m →
    selectLoopGo f l b bs = (firstWithScore f m l, m) := by
  intro l
  induction l with
  | nil => intro b bs m _ _ _ hr; simp [minNonnegBelow] at hr
  | cons n rest ih =>
    intro b bs m hb hnl hbs hr
    have hbnull : b.isNull = false := by
      cases b with
      | null => exact absurd rfl hb
      | node k i t cs => rfl
    have hnn : n ≠ Node.null := fun h => hnl (h ▸ List.mem_cons_self _ _)
    have hnmem : Node.null ∉ rest := fun h => hnl (List.mem_cons_of_mem _ h)
    obtain ⟨ha, hbnd, _, hlb⟩ := minNonnegBelow_some f bs (n :: rest) m hr
    simp only [selectLoopGo]
    by_cases h2 : f n = -2
    · rw [if_pos h2]
      have hskip : ¬(0 ≤ f n ∧ f n < bs) := by omega
      rw [minNonnegBelow_cons_skip f bs n rest hskip] at hr
      rw [ih b bs m hb hnmem hbs hr]
      rw [firstWithScore_cons_ne f n rest m (by omega)]
    · rw [if_neg h2]
      by_cases hup : 0 ≤ f n ∧ f n < bs
      · rw [if_pos (Or.inr ⟨hup.1, Or.inr hup.2⟩)]
        cases hr2 : minNonnegBelow f (f n) rest with
        | some m2 =>
          obtain ⟨ha2, hb2, hex2, hlb2⟩ := minNonnegBelow_some f (f n) rest m2 hr2
          have hall : minNonnegBelow f bs (n :: rest) = some m2 := by
            apply minNonnegBelow_intro
            · omega
            · omega
            · obtain ⟨x0, hx0, hfx0⟩ := hex2
              exact ⟨x0, List.mem_cons_of_mem _ hx0, hfx0⟩
            · intro x hx h0 hbx
              cases hx with
              | head => omega
              | tail _ hmem =>
                by_cases hlt : f x < f n
                · exact hlb2 x hmem h0 hlt
                · omega
          rw [hr] at hall
          injection hall with hall
          subst hall
          rw [ih n (f n) m hnn hnmem hup.1 hr2]
          rw [firstWithScore_cons_ne f n rest m (by omega)]
        | none =>
          have hnone := (minNonnegBelow_none_iff f (f n) rest).1 hr2
          have hall : minNonnegBelow f bs (n :: rest) = some (f n) := by
            apply minNonnegBelow_intro
            · exact hup.1
            · exact hup.2
            · exact ⟨n, List.mem_cons_self _ _, rfl⟩
            · intro x hx h0 hbx
              cases hx with
              | head => omega
              | tail _ hmem =>
                have := hnone x hmem
                omega
          rw [hr] at hall
          injection hall with hall
          subst hall
          rw [selectLoopGo_pos_none f rest n (f n) hnn hnmem hup.1 hr2]
          rw [firstWithScore_cons_self f n rest (f n) rfl]
      · have hcond : ¬(b.isNull = true ∨ (0 ≤ f n ∧ (bs < 0 ∨ f n < bs))) := by
          intro hc
          cases hc with
          | inl hcc => rw [hbnull] at hcc; exact Bool.noConfusion hcc
          | inr hcc =>
            apply hup
            refine ⟨hcc.1, ?_⟩
            cases hcc.2 with
            | inl h3 => omega
            | inr h3 => exact h3
        rw [if_neg hcond]
        rw [minNonnegBelow_cons_skip f bs n rest hup] at hr
        rw [ih b bs m hb hnmem hbs hr]
        have hne : f n ≠ m := by
          intro he
          exact hup (by omega)
        rw [firstWithScore_cons_ne f n rest m hne]

theorem selectLoopGo_step (f : Node → Int) (n : Node) (rest : List Node)
    (hnn : n ≠ Node.null) (hnmem : Node.null ∉ rest) (h0 : 0 ≤ f n) :
    ∃ m, minNonneg f (n :: rest) = some m ∧
      selectLoopGo f rest n (f n) = (firstWithScore f m (n :: rest), m) := by
  cases hr2 : minNonnegBelow f (f n) rest with
  | some m2 =>
    obtain ⟨ha2, hb2, hex2, hlb2⟩ := minNonnegBelow_some f (f n) rest m2 hr2
    have hmn : minNonneg f (n :: rest) = some m2 := by
      apply minNonneg_intro
      · omega
      · obtain ⟨x0, hx0, hfx0⟩ := hex2
        exact ⟨x0, List.mem_cons_of_mem _ hx0, hfx0⟩
      · intro x hx hx0
        cases hx with
        | head => omega
        | tail _ hmem =>
          by_cases hlt : f x < f n
          · exact hlb2 x hmem hx0 hlt
          · omega
    refine ⟨m2, hmn, ?_⟩
    rw [selectLoopGo_pos_some f rest n (f n) m2 hnn hnmem h0 hr2]
    rw [firstWithScore_cons_ne f n rest m2 (by omega)]
  | none =>
    have hnone := (minNonnegBelow_none_iff f (f n) rest).1 hr2
    have hmn : minNonneg f (n :: rest) = some (f n) := by
      apply minNonneg_intro
      · exact h0
      · exact ⟨n, List.mem_cons_self _ _, rfl⟩
      · intro x hx hx0
        cases hx with
        | head => omega
        | tail _ hmem =>
          have := hnone x hmem
          omega
    refine ⟨f n, hmn, ?_⟩
    rw [selectLoopGo_pos_none f rest n (f n) hnn hnmem h0 hr2]
    rw [firstWithScore_cons_self f n rest (f n) rfl]

theorem selectLoopGo_negcur_none (f : Node → Int) :
    ∀ (l : List Node) (b : Node) (bs : Int), b ≠ Node.null → Node.null ∉ l →
    bs < 0 → minNonneg f l = none → selectLoopGo f l b bs = (b, bs) := by
  intro l
  induction l with
  | nil => intro b bs _ _ _ _; rfl
  | cons n rest ih =>
    intro b bs hb hnl hbs hr
    have hbnull : b.isNull = false := by
      cases b with
      | null => exact absurd rfl hb
      | node k i t cs => rfl
    have hnmem : Node.null ∉ rest := fun h => hnl (List.mem_cons_of_mem _ h)
    have hfail := (minNonneg_none_iff f (n :: rest)).1 hr
    have hhead := hfail n (List.mem_cons_self _ _)
    have hrest : minNonneg f rest = none :=
      (minNonneg_none_iff f rest).2
        (fun x hmem => hfail x (List.mem_cons_of_mem _ hmem))
    simp only [selectLoopGo]
    by_cases h2 : f n = -2
    · rw [if_pos h2]
      exact ih b bs hb hnmem hbs hrest
    · rw [if_neg h2]
      have hcond : ¬(b.isNull = true ∨ (0 ≤ f n ∧ (bs < 0 ∨ f n < bs))) := by
        intro hc
        cases hc with
        | inl hcc => rw [hbnull] at hcc; exact Bool.noConfusion hcc
        | inr hcc => exact hhead hcc.1
      rw [if_neg hcond]
      exact ih b bs hb hnmem hbs hrest

theorem selectLoopGo_negcur_some (f : Node → Int) :
    ∀ (l : List Node) (b : Node) (bs m : Int), b ≠ Node.null → Node.null ∉ l →
    bs < 0 → minNonneg f l = some m →
    selectLoopGo f l b bs = (firstWithScore f m l, m) := by
  intro l
  induction l with
  | nil => intro b bs m _ _ _ hr; simp [minNonneg] at hr
  | cons n rest ih =>
    intro b bs m hb hnl hbs hr
    have hbnull : b.isNull = false := by
      cases b with
      | null => exact absurd rfl hb
      | node k i t cs => rfl
    have hnn : n ≠ Node.null := fun h => hnl (h ▸ List.mem_cons_self _ _)
    have hnmem : Node.null ∉ rest := fun h => hnl (List.mem_cons_of_mem _ h)
    obtain ⟨ha, _, _⟩ := minNonneg_some f (n :: rest) m hr
    simp only [selectLoopGo]
    by_cases hup : 0 ≤ f n
    · have h2 : ¬(f n = -2) := by omega
      rw [if_neg h2, if_pos (Or.inr ⟨hup, Or.inl hbs⟩)]
      obtain ⟨m2, hmn, hgo⟩ := selectLoopGo_step f n rest hnn hnmem hup
      rw [hr] at hmn
      injection hmn with hmn
      subst hmn
      exact hgo
    · have hskip : minNonneg f (n :: rest) = minNonneg f rest :=
        minNonneg_cons_skip f n rest hup
      rw [hskip] at hr
      have hne : f n ≠ m := by omega
      by_cases h2 : f n = -2
      · rw [if_pos h2]
        rw [ih b bs m hb hnmem hbs hr]
        rw [firstWithScore_cons_ne f n rest m hne]
      · rw [if_neg h2]
        have hcond : ¬(b.isNull = true ∨ (0 ≤ f n ∧ (bs < 0 ∨ f n < bs))) := by
          intro hc
          cases hc with
          | inl hcc => rw [hbnull] at hcc; exact Bool.noConfusion hcc
          | inr hcc => exact hup hcc.1
        rw [if_neg hcond]
        rw [ih b bs m hb hnmem hbs hr]
        rw [firstWithScore_cons_ne f n rest m hne]

theorem selectLoopGo_null_some (f : Node → Int) :
    ∀ (l : List Node) (m : Int), Node.null ∉ l → (∀ x ∈ l, -2 ≤ f x) →
    minNonneg f l = some m →
    selectLoopGo f l Node.null (-1) = (firstWithScore f m l, m) := by
  intro l
  induction l with
  | nil => intro m _ _ hr; simp [minNonneg] at hr
  | cons n rest ih =>
    intro m hnl hbd hr
    have hnn : n ≠ Node.null := fun h => hnl (h ▸ List.mem_cons_self _ _)
    have hnmem : Node.null ∉ rest := fun h => hnl (List.mem_cons_of_mem _ h)
    have hbdrest : ∀ x ∈ rest, -2 ≤ f x :=
      fun x hmem => hbd x (List.mem_cons_of_mem _ hmem)
    obtain ⟨ha, _, _⟩ := minNonneg_some f (n :: rest) m hr
    simp only [selectLoopGo]
    by_cases h2 : f n = -2
    · rw [if_pos h2]
      have hskip : minNonneg f (n :: rest) = minNonneg f rest :=
        minNonneg_cons_skip f n rest (by omega)
      rw [hskip] at hr
      rw [ih m hnmem hbdrest hr]
      rw [firstWithScore_cons_ne f n rest m (by omega)]
    · rw [if_neg h2]
      rw [if_pos (Or.inl (show Node.null.isNull = true from rfl))]
      by_cases hup : 0 ≤ f n
      · obtain ⟨m2, hmn, hgo⟩ := selectLoopGo_step f n rest hnn hnmem hup
        rw [hr] at hmn
        injection hmn with hmn
        subst hmn
        exact hgo
      · have hneg1 : f n = -1 := by
          have := hbd n (List.mem_cons_self _ _)
          omega
        have hskip : minNonneg f (n :: rest) = minNonneg f rest :=
          minNonneg_cons_skip f n rest hup
        rw [hskip] at hr
        rw [hneg1]
        rw [selectLoopGo_negcur_some f rest n (-1) m hnn hnmem (by omega) hr]
        rw [firstWithScore_cons_ne f n rest m (by omega)]

theorem selectLoopGo_null_none (f : Node → Int) :
    ∀ (l : List Node), Node.null ∉ l → (∀ x ∈ l, -2 ≤ f x) →
    minNonneg f l = none →
    selectLoopGo f l Node.null (-1) = (firstWithScore f (-1) l, -1) := by
  intro l
  induction l with
  | nil => intro _ _ _; rfl
  | cons n rest ih =>
    intro hnl hbd hr
    have hnn : n ≠ Node.null := fun h => hnl (h ▸ List.mem_cons_self _ _)
    have hnmem : Node.null ∉ rest := fun h => hnl (List.mem_cons_of_mem _ h)
    have hbdrest : ∀ x ∈ rest, -2 ≤ f x :=
      fun x hmem => hbd x (List.mem_cons_of_mem _ hmem)
    have hfail := (minNonneg_none_iff f (n :: rest)).1 hr
    have hhead := hfail n (List.mem_cons_self _ _)
    have hrest : minNonneg f rest = none :=
      (minNonneg_none_iff f rest).2
        (fun x hmem => hfail x (List.mem_cons_of_mem _ hmem))
    simp only [selectLoopGo]
    by_cases h2 : f n = -2
    · rw [if_pos h2]
      rw [ih hnmem hbdrest hrest]
      rw [firstWithScore_cons_ne f n rest (-1) (by omega)]
    · rw [if_neg h2]
      rw [if_pos (Or.inl (show Node.null.isNull = true from rfl))]
      have hneg1 : f n = -1 := by
        have := hbd n (List.mem_cons_self _ _)
        omega
      rw [hneg1]
      rw [selectLoopGo_negcur_none f rest n (-1) hnn hnmem (by omega) hrest]
      rw [firstWithScore_cons_self f n rest (-1) hneg1]

theorem getRepScore_ge (env : Env) (st : QState) (n q : Node) (index : Nat)
    (v_tn : TypeNode) : -2 ≤ getRepScore env st n q index v_tn := by
  unfold getRepScore
  repeat' split
  all_goals omega

/-- Claim C4: over a class without the null term, the pre-guard
winner of the selection loop is the declarative winner: the
first-enumerated member with the minimal non-negative score when some
member scores at least 0 (so equal non-negative scores are broken in
favour of the earlier member), otherwise the first-enumerated member
with score -1 (so an undesired member never replaces a candidate with
a non-negative score), and null when every member is rejected. -/
theorem c4_selection_loop (env : Env) (st : QState) (q : Node) (index : Nat)
    (v_tn : TypeNode) (eqc : List Node) (hnull : Node.null ∉ eqc) :
    (selectLoop env st q index v_tn eqc).1
      = specWinner (fun n => getRepScore env st n q index v_tn) eqc := by
  have hb : ∀ x ∈ eqc, -2 ≤ (fun n => getRepScore env st n q index v_tn) x :=
    fun x _ => getRepScore_ge env st x q index v_tn
  cases hr : minNonneg (fun n => getRepScore env st n q index v_tn) eqc with
  | some m =>
    unfold selectLoop
    rw [selectLoopGo_null_some _ eqc m hnull hb hr]
    simp [specWinner, hr]
  | none =>
    unfold selectLoop
    rw [selectLoopGo_null_none _ eqc hnull hb hr]
    simp [specWinner, hr]

/-- Witness for C4 on the concrete class with members f(a) and a in
depth mode: the shallower first-minimal member wins. -/
theorem c4_witness :
    (selectLoop baseEnv emptyState Node.null 0 3 [faN, caN]).1
      = specWinner (fun n => getRepScore baseEnv emptyState n Node.null 0 3)
          [faN, caN] :=
  c4_selection_loop baseEnv emptyState Node.null 0 3 [faN, caN] (by decide)
